import Mathlib

/-!
Verification of the darkfi validator consensus core
(`src/consensus/state.rs`) against its specification.

The Rust code is shallowly embedded: pure functions become Lean
functions, `&mut self` methods become explicit state passing, fallible
code returns `Except`, and a panicking execution (failed `assert!`,
out-of-bounds indexing, `unwrap()` of `None`) is modelled by an outer
`Option` whose `none` means "the call panics".

Field elements of the pallas base field are modelled as canonical
natural numbers; the order used by the lottery comparison (`y < T`)
is the numeric order of canonical values, which agrees with the
most-significant-byte-first comparison of the field encoding that the
Rust `Ord` instance implements.

External collaborators that are part of the repository but not among
the staged source files (the canonical-chain gateway `Blockchain`, the
Poseidon hash and Pedersen commitment primitives, the `Float10`
arbitrary-precision arithmetic, `LeadCoin::new`, `Timestamp::elapsed`,
the contract runtime behind `verify_transactions`) are modelled from
the spec as components of an environment record `Env` of uninterpreted
functions; theorems quantify over the environment and witnesses pick
concrete instances.
-/

namespace Darkfi

/-- Block header, from `Header` as used by `state.rs`: carries
`(previous_hash, epoch, slot, timestamp, tx_merkle_root)`.  Hashes are
modelled as natural numbers. -/
structure Header where
  previous : Nat
  epoch : Nat
  slot : Nat
  timestamp : Int
  root : Nat
deriving DecidableEq

/-- Modelled from the spec: a `Participant` record is a public key plus a
per-slot coin public-inputs matrix (`participants` mapping, spec section 3);
the concrete struct lives outside the staged sources. -/
structure Participant where
  public_key : Nat
  coins : List (List (List Nat))
deriving DecidableEq

/-- Proposal metadata, from `Metadata` as consumed by `receive_proposal`:
`(signature, proposer_public_key, coin_public_inputs, new_coin_public_inputs,
winning_index, coin_serial, epoch_eta_bytes, leader_proof, participants)`.
The opaque signature and proof are modelled as numbers. -/
structure Metadata where
  signature : Nat
  public_key : Nat
  public_inputs : List Nat
  new_public_inputs : List Nat
  winning_index : Nat
  sn : Nat
  eta : Nat
  proof : Nat
  participants : List Participant
deriving DecidableEq

/-- The block body carried by a proposal: header, transactions and
metadata.  Transactions are opaque to the consensus core and modelled as
numbers.  This is also the shape of a finalized `BlockInfo` (the
`BlockProposal → BlockInfo` conversion keeps header, txs and metadata). -/
structure PBlock where
  header : Header
  txs : List Nat
  metadata : Metadata
deriving DecidableEq

/-- A block proposal: the binding header hash together with the block,
from `BlockProposal` (`proposal.header` is the stored hash,
`proposal.block.header` the header). -/
structure BlockProposal where
  header : Nat
  block : PBlock
deriving DecidableEq

/-- A fork chain of proposals.  `ProposalChain` also stores an ancestor
hash, but (spec section 4.5) chain equality for pruning uses the entire
proposal sequence, which is what the model keeps. -/
abbrev ProposalChain := List BlockProposal

/-- The lottery attributes of a stake coin, from `LeadCoin` as read by
`is_slot_leader`: `value` is a machine integer (`u64`), the remaining
fields are field elements.  The fields not consulted by the staged code
(merkle paths, commitments, secrets) are omitted. -/
structure LeadCoin where
  value : Nat
  coin1_sk_root : Nat
  nonce : Nat
  y_mu : Nat
  sigma1 : Nat
  sigma2 : Nat
  sn : Nat
deriving DecidableEq

/-- The environment of external collaborators and configuration
constants, modelled from the spec (sections 4.2, 6): the configuration
constants `DELTA`, `EPOCH_LENGTH` and the field modulus `P`; the two
wall-clock reads a single operation can make; the hash, proof,
signature and transaction-verification oracles; the canonical-chain
gateway (`canonLast` is `Blockchain::last()`, `blockHash` the per-block
hash `Blockchain::add` reports, `addOk` whether the append succeeds,
`lastProofHash` is `get_last_proof_hash()`); the Poseidon and Pedersen
primitives; `mkCoin` abstracts `LeadCoin::new` together with the
per-epoch secrets, random seeds and the commitment Merkle tree;
`sigma1`/`sigma2` abstract the `Float10` lottery-parameter computation
of `create_epoch_coins`. -/
structure Env where
  DELTA : Nat
  EPOCH_LENGTH : Nat
  P : Nat
  now : Int
  now2 : Int
  headerhash : Header → Nat
  blockHash : PBlock → Nat
  addOk : List PBlock → Bool
  verifyTx : List Nat → Bool
  proofVerify : Nat → List Nat → Bool
  sigVerify : Nat → Nat → Nat → Bool
  canonLast : Nat × Nat
  lastProofHash : Nat
  poseidon2 : Nat → Nat → Nat
  pedersenCoords : Nat → Nat → Nat × Nat
  mkCoin : Nat → Nat → Nat → Nat → LeadCoin
  sigma1 : Nat
  sigma2 : Nat

/-- The in-memory consensus state, from `ConsensusState`.  The ordered
`BTreeMap` of participants is modelled as an association list keyed by
the public key. -/
structure ConsensusState where
  genesis_ts : Int
  genesis_block : Nat
  proposals : List ProposalChain
  participants : List (Nat × Participant)
  refreshed : Nat
  epoch : Nat
  epoch_eta : Nat
  coins : List (List LeadCoin)
deriving DecidableEq

/-- The validator-state fields consulted by the embedded operations,
from `ValidatorState`: the consensus state and the participating-from
slot.  Keys, mempool and wallet play no role in the claims. -/
structure ValidatorState where
  consensus : ConsensusState
  participating : Option Nat
deriving DecidableEq

/-! ## Time model (`current_slot`, `slot_epoch`, `relative_slot`,
`next_n_slot_start`, `slots_to_next_n_epoch`) -/

/-- Modelled from the spec: `Timestamp::elapsed` (external `util::time`)
is `now − genesis_ts` in seconds, saturating at zero.  `current_slot`
then divides by the slot duration `2·DELTA` (source line 271). -/
def current_slot (env : Env) (st : ConsensusState) : Nat :=
  (env.now - st.genesis_ts).toNat / (2 * env.DELTA)

/-- Epoch of a slot (source line 265). -/
def slot_epoch (env : Env) (slot : Nat) : Nat :=
  slot / env.EPOCH_LENGTH

/-- Relative slot within its epoch (source line 276). -/
def relative_slot (env : Env) (slot : Nat) : Nat :=
  slot % env.EPOCH_LENGTH

/-- Current epoch (source line 259). -/
def current_epoch (env : Env) (st : ConsensusState) : Nat :=
  slot_epoch env (current_slot env st)

/-- The signed number of seconds from the second clock read to the start
of slot `current_slot + n`, as computed by `next_n_slot_start` before
its conversion to a `Duration`. -/
def nextSlotDelta (env : Env) (st : ConsensusState) (n : Nat) : Int :=
  let cur : Nat := current_slot env st + n
  let next_slot_start : Int := (cur * (2 * env.DELTA) : Nat) + st.genesis_ts
  next_slot_start - env.now2

/-- Seconds until the start of slot `current_slot + n`, from
`next_n_slot_start` (source lines 303-313).  `none` models a panic: the
`assert!(n > 0)` on entry, and the `try_into::<u64>().unwrap()` applied
to the signed difference, which fails whenever the difference is
negative. -/
def next_n_slot_start (env : Env) (st : ConsensusState) (n : Nat) : Option Nat :=
  if n = 0 then none
  else
    let diff := nextSlotDelta env st n
    if diff < 0 then none else some diff.toNat

/-- Slots until the next `n`-th epoch, from `slots_to_next_n_epoch`
(source lines 317-321); `none` models the `assert!(n > 0)`. -/
def slots_to_next_n_epoch (env : Env) (st : ConsensusState) (n : Nat) : Option Nat :=
  if n = 0 then none
  else
    let slots_till_next_epoch := env.EPOCH_LENGTH - relative_slot env (current_slot env st)
    some ((n - 1) * env.EPOCH_LENGTH + slots_till_next_epoch)

/-! ## Lottery (`is_slot_leader`, source lines 468-513) -/

/-- The lottery value `y` of a coin: the Poseidon hash of the affine
coordinates of the Pedersen commitment to `H(sk_root, nonce)` with
blinding `mod_r(y_mu)` (source lines 484-492).  `pedersenCoords`
abstracts `pedersen_commitment_base(·, mod_r_p(·)).to_affine().coordinates()`. -/
def lotteryY (env : Env) (coin : LeadCoin) : Nat :=
  let y_exp_hash := env.poseidon2 coin.coin1_sk_root coin.nonce
  let y_coords := env.pedersenCoords y_exp_hash coin.y_mu
  env.poseidon2 y_coords.1 y_coords.2

/-- The lottery target `T = sigma1·v + sigma2·v²` of a coin, computed in
the field (source lines 494-495). -/
def lotteryTarget (env : Env) (coin : LeadCoin) : Nat :=
  let v := coin.value % env.P
  (coin.sigma1 * v + coin.sigma2 * v * v) % env.P

/-- Whether a coin wins the lottery: `y < T` (source line 500). -/
def lotteryWinsB (env : Env) (coin : LeadCoin) : Bool :=
  lotteryY env coin < lotteryTarget env coin

/-- One iteration of the `is_slot_leader` loop over
`(won, highest_stake, highest_stake_idx)` (source lines 483-510). -/
def leaderStep (env : Env) (acc : Bool × Nat × Nat) (ic : Nat × LeadCoin) :
    Bool × Nat × Nat :=
  let won := acc.1
  let highest_stake := acc.2.1
  let highest_stake_idx := acc.2.2
  let winning_idx := ic.1
  let coin := ic.2
  let first_winning := lotteryWinsB env coin
  let highest_stake_idx1 := if first_winning && !won then winning_idx else highest_stake_idx
  let won1 := won || first_winning
  if won1 && decide (highest_stake < coin.value) then (won1, coin.value, winning_idx)
  else (won1, highest_stake, highest_stake_idx1)

/-- The slot-lottery decision, from `is_slot_leader`: evaluate every
competing coin of the current relative slot; `none` models the
`assert!((slot as usize) < coins.len())` failing. -/
def is_slot_leader (env : Env) (st : ConsensusState) : Option (Bool × Nat) :=
  let slot := relative_slot env (current_slot env st)
  let coins := st.coins
  if slot < coins.length then
    let competing_coins := coins.getD slot []
    let r := competing_coins.enum.foldl (leaderStep env) (false, 0, 0)
    some (r.1, r.2.2)
  else none

/-! ## Epoch coin generator (`get_eta`, `create_coins`,
`create_epoch_coins`, `epoch_changed`) -/

/-- Leader-selection randomness, from `get_eta` (source lines 872-879):
the last lead-proof hash of the canonical chain with its two top bytes
of the little-endian encoding zeroed, read as a field element; zeroing
the top two of 32 bytes is reduction modulo `2^240`. -/
def get_eta (env : Env) : Nat :=
  env.lastProofHash % (2 ^ 240)

/-- Coin matrix creation, from `create_coins` (source lines 405-447):
one freshly minted competing coin per slot of the epoch.  `env.mkCoin`
abstracts `LeadCoin::new` with the external epoch secrets, random seeds
and commitment Merkle tree; its last argument is the slot index. -/
def create_coins (env : Env) (eta sigma1 sigma2 : Nat) : List (List LeadCoin) :=
  (List.range env.EPOCH_LENGTH).map (fun i => [env.mkCoin eta sigma1 sigma2 i])

/-- Epoch coin creation, from `create_epoch_coins` (source lines
370-401).  The `sigma1`/`sigma2` lottery parameters are computed there
with the external `Float10` arbitrary-precision arithmetic
(`c = ln(1 − frequency)`, `sigma1 = c/stake·P`, `sigma2 = (c/stake)²·P/2`);
modelled from the spec as the uninterpreted `env.sigma1`, `env.sigma2`. -/
def create_epoch_coins (env : Env) (eta : Nat) : List (List LeadCoin) :=
  create_coins env eta env.sigma1 env.sigma2

/-- Epoch rollover, from `epoch_changed` (source lines 355-367): when
the current epoch exceeds the stored one, refresh eta, the coin matrix
and the epoch counter. -/
def epoch_changed (env : Env) (st : ConsensusState) : Bool × ConsensusState :=
  let epoch := current_epoch env st
  if epoch ≤ st.epoch then (false, st)
  else
    let eta := get_eta env
    let coins := create_epoch_coins env eta
    (true, { st with coins := coins, epoch := epoch, epoch_eta := eta })

/-! ## Fork set (`find_extended_chain_index`, source lines 721-757) -/

/-- Outcome of the chain scan inside `find_extended_chain_index`:
either some chain's tip is extended (`found` its index), or a sibling of
some chain's tip was proposed (`fork` keeps the clone of that chain), or
the loop ran out of chains. -/
inductive FecScan where
  | found (i : Nat)
  | fork (c : ProposalChain)
  | noMatch
deriving DecidableEq

/-- The scan loop of `find_extended_chain_index` (source lines 723-738):
for each chain in order, first the tip-extension test
(`p.previous = last.header_hash ∧ p.slot > last.slot`, return the
index), then the sibling test (`p.previous = last.previous ∧
p.slot > last.slot`, keep the clone and stop).  `none` models the
`last().unwrap()` panic on an empty chain. -/
def fecLoop (p : BlockProposal) : List ProposalChain → Option FecScan
  | [] => some .noMatch
  | chain :: rest =>
    match chain.getLast? with
    | none => none
    | some last =>
      if p.block.header.previous = last.header ∧ last.block.header.slot < p.block.header.slot then
        some (.found 0)
      else if p.block.header.previous = last.block.header.previous ∧
          last.block.header.slot < p.block.header.slot then
        some (.fork chain)
      else
        match fecLoop p rest with
        | none => none
        | some (.found i) => some (.found (i + 1))
        | some r => some r

/-- The canonical-tip fallback of `find_extended_chain_index` (source
lines 750-756): `-1` when the proposal extends the canonical tip,
`-2` when it extends nothing known. -/
def fecCanonical (env : Env) (st : ConsensusState) (p : BlockProposal) :
    Int × ConsensusState :=
  let last_slot := env.canonLast.1
  let last_block := env.canonLast.2
  if p.block.header.previous ≠ last_block ∨ p.block.header.slot ≤ last_slot then (-2, st)
  else (-1, st)

/-- Fork-extension lookup, from `find_extended_chain_index`: scan the
fork chains; on a sibling match clone the chain, drop its tip and (when
the clone is nonempty) append it, returning the new chain's index;
otherwise fall back to the canonical-tip test.  `none` models a panic. -/
def find_extended_chain_index (env : Env) (st : ConsensusState) (p : BlockProposal) :
    Option (Int × ConsensusState) :=
  match fecLoop p st.proposals with
  | none => none
  | some (.found i) => some ((i : Int), st)
  | some (.fork chain) =>
    let chain1 := chain.dropLast
    if chain1 ≠ [] then
      some ((st.proposals.length : Int), { st with proposals := st.proposals ++ [chain1] })
    else
      some (fecCanonical env st p)
  | some .noMatch => some (fecCanonical env st p)

/-! ## Finalization (`chain_finalization`, source lines 790-856) -/

/-- Error kinds surfaced by the embedded operations, following the
source's `Error` variants; `gatewayAdd` stands for whatever error
`Blockchain::add` reports and `verifyTxFailed` for whatever error
`verify_transactions` reports. -/
inductive Err where
  | unknownNode
  | headersMissmatch
  | invalidPublicInputs
  | leaderProofVerification
  | invalidSignature
  | extendedChainIndexNotFound
  | verifyTxFailed
  | gatewayAdd
deriving DecidableEq

/-- Whether a fork chain survives the pruning after finalization
(source line 846, negated): its first proposal chains from the new
canonical tip hash `lb` and has a slot strictly above the new canonical
slot `ls`. -/
def keepB (lb ls : Nat) (c : ProposalChain) : Bool :=
  match c.head? with
  | some first => first.block.header.previous = lb ∧ ls < first.block.header.slot
  | none => false

/-- Chain finalization, from `chain_finalization`: given a chain index,
either a no-op (length below 3 or a rival chain at least as long), or
drain all but the tip, append the drained blocks to the gateway, re-run
transaction verification over them, and prune every fork chain that
does not chain from the new canonical tip.  The returned state reflects
the mutations performed up to the point of return, also on error;
`none` models a panic (index out of bounds, or `first().unwrap()` on an
empty chain during pruning). -/
def chain_finalization (env : Env) (st : ConsensusState) (chain_index : Nat) :
    Option (Except Err (List PBlock) × ConsensusState) :=
  match st.proposals.get? chain_index with
  | none => none
  | some chain =>
    let length := chain.length
    if length < 3 then some (.ok [], st)
    else if st.proposals.enum.any (fun ic => ic.1 ≠ chain_index && length ≤ ic.2.length) then
      some (.ok [], st)
    else
      let bound := length - 1
      let finalized := (chain.take bound).map (·.block)
      let st1 := { st with proposals := st.proposals.set chain_index (chain.drop bound) }
      if env.addOk finalized then
        if finalized.all (fun b => env.verifyTx b.txs) then
          match finalized.getLast? with
          | none => none
          | some lastb =>
            let last_block := env.blockHash lastb
            let last_slot := lastb.header.slot
            if st1.proposals.any (·.isEmpty) then none
            else
              let dropped := st1.proposals.filter (fun c => !keepB last_block last_slot c)
              let remaining :=
                dropped.foldl (fun acc d => acc.filter (fun c => decide (c ≠ d))) st1.proposals
              some (.ok finalized, { st1 with proposals := remaining })
        else some (.error .verifyTxFailed, st1)
      else some (.error .gatewayAdd, st1)

/-! ## Proposal validation (`receive_proposal`, source lines 617-718) -/

/-- Participant lookup by public key, from
`participants.get(&md.public_key.to_bytes())`. -/
def lookupParticipant (ps : List (Nat × Participant)) (pk : Nat) : Option Participant :=
  (ps.find? (fun kv => kv.1 = pk)).map (·.2)

/-- Participant registration, from `append_participant` (source lines
859-868): a `BTreeMap::insert`, replacing the record under an existing
key or adding a new entry. -/
def append_participant (ps : List (Nat × Participant)) (pt : Participant) :
    List (Nat × Participant) :=
  if ps.any (fun kv => kv.1 = pt.public_key) then
    ps.map (fun kv => if kv.1 = pt.public_key then (kv.1, pt) else kv)
  else ps ++ [(pt.public_key, pt)]

/-- Proposal reception, from `receive_proposal`: the ordered checks
(participation window, known leader, header hash, coin public inputs,
leader proof, signature, chain extension, transaction verification),
then the participant refresh and the chain growth with finalization.
`ProposalChain::new` (external) anchors a fresh chain at the genesis
hash holding exactly the proposal, and `ProposalChain::add` appends to
the extended chain, per spec section 4.6.  The returned state reflects
the mutations performed up to the point of return; `none` models a
panic (out-of-bounds coin matrix indexing, or a panic inside the
extension lookup or finalization). -/
def receive_proposal (env : Env) (st : ValidatorState) (p : BlockProposal) :
    Option (Except Err (Option (List PBlock)) × ValidatorState) :=
  let current := current_slot env st.consensus
  match st.participating with
  | none => some (.ok none, st)
  | some start =>
    if current < start then some (.ok none, st)
    else
      let md := p.block.metadata
      let hdr := p.block.header
      match lookupParticipant st.consensus.participants md.public_key with
      | none => some (.error .unknownNode, st)
      | some leader =>
        if p.header ≠ env.headerhash hdr then some (.error .headersMissmatch, st)
        else
          match (leader.coins.get? (relative_slot env current)).bind
              (fun row => row.get? md.winning_index) with
          | none => none
          | some public_inputs =>
            if public_inputs ≠ md.public_inputs then some (.error .invalidPublicInputs, st)
            else if ¬ env.proofVerify md.proof public_inputs then
              some (.error .leaderProofVerification, st)
            else if ¬ env.sigVerify leader.public_key p.header md.signature then
              some (.error .invalidSignature, st)
            else
              match find_extended_chain_index env st.consensus p with
              | none => none
              | some (index, cs1) =>
                if index = -2 then
                  some (.error .extendedChainIndexNotFound, { st with consensus := cs1 })
                else if ¬ env.verifyTx p.block.txs then
                  some (.error .verifyTxFailed, { st with consensus := cs1 })
                else
                  let rel := relative_slot env current
                  let leader1 := { leader with
                    coins := leader.coins.set rel
                      ((leader.coins.getD rel []).set md.winning_index md.new_public_inputs) }
                  let cs2 := { cs1 with
                    participants := append_participant cs1.participants leader1 }
                  if index = -1 then
                    some (.ok (some []),
                      { st with consensus :=
                        { cs2 with proposals := cs2.proposals ++ [[p]] } })
                  else
                    match cs2.proposals.get? index.toNat with
                    | none => none
                    | some c =>
                      let cs3 := { cs2 with
                        proposals := cs2.proposals.set index.toNat (c ++ [p]) }
                      match chain_finalization env cs3 index.toNat with
                      | none => none
                      | some (.error e, cs4) => some (.error e, { st with consensus := cs4 })
                      | some (.ok v, cs4) => some (.ok (some v), { st with consensus := cs4 })

/-! ## Concrete fixtures used by witnesses and counterexamples -/

/-- A concrete environment: one-second half-slots, ten-slot epochs, a
small field, hash oracles that read off the slot, and arithmetic stand-ins
for the Poseidon and Pedersen primitives. -/
def tEnv : Env :=
  { DELTA := 1
    EPOCH_LENGTH := 10
    P := 101
    now := 0
    now2 := 0
    headerhash := fun h => h.slot
    blockHash := fun b => b.header.slot
    addOk := fun _ => true
    verifyTx := fun _ => true
    proofVerify := fun _ _ => true
    sigVerify := fun _ _ _ => true
    canonLast := (0, 999)
    lastProofHash := 7
    poseidon2 := fun a b => a + b
    pedersenCoords := fun a b => (a, b)
    mkCoin := fun _ s1 s2 i => ⟨0, 0, 0, 0, s1, s2, i⟩
    sigma1 := 3
    sigma2 := 4 }

/-- A consensus state fresh from `ConsensusState::new`: empty fork set,
no participants, no coins. -/
def baseCS : ConsensusState :=
  { genesis_ts := 0
    genesis_block := 999
    proposals := []
    participants := []
    refreshed := 0
    epoch := 0
    epoch_eta := 1
    coins := [] }

/-- A coin that wins the lottery under `tEnv`: `y = 0 < 5 = T`. -/
def coinA : LeadCoin := ⟨5, 0, 0, 0, 1, 0, 0⟩

/-- A coin of larger value that loses the lottery under `tEnv`:
`y = 50 ≥ 10 = T`. -/
def coinB : LeadCoin := ⟨10, 50, 0, 0, 1, 0, 0⟩

/-- A state whose current relative slot holds the two competing coins
`coinA` (a winner) and `coinB` (a loser of larger value). -/
def lotteryCS : ConsensusState := { baseCS with coins := [[coinA, coinB]] }

/-! ## C1, C8, C9, C10 -/

/-- C1 (code bug): the claim says the returned index is the index of the
largest-value coin among the *winning* coins.  On the row
`[coinA, coinB]` where only `coinA` (value 5, index 0) wins and `coinB`
(value 10, index 1) loses, `is_slot_leader` returns `(true, 1)`: once
`won` is set, the loop lets any later coin of larger value capture the
index whether or not that coin wins, so the selected coin is not a
winner.  This contradicts the function's own documentation ("only the
highest value coin is selected" among "multiple competing winning
coins"). -/
theorem is_slot_leader_selects_losing_coin :
    is_slot_leader tEnv lotteryCS = some (true, 1) ∧
    lotteryWinsB tEnv coinA = true ∧
    lotteryWinsB tEnv coinB = false ∧
    coinA.value < coinB.value := by
  decide

/-- C8: `epoch_changed` returns `false` and leaves the state unchanged
whenever the current epoch is at most the stored one; when the current
epoch is greater it returns `true`, the coin matrix gets exactly
`EPOCH_LENGTH` rows of exactly one competing coin each, and the stored
epoch becomes the current epoch; the epoch counter never decreases. -/
theorem epoch_changed_spec (env : Env) (st : ConsensusState) :
    (current_epoch env st ≤ st.epoch → epoch_changed env st = (false, st)) ∧
    (st.epoch < current_epoch env st →
      (epoch_changed env st).1 = true ∧
      (epoch_changed env st).2.coins.length = env.EPOCH_LENGTH ∧
      (epoch_changed env st).2.coins.all (fun row => row.length = 1) = true ∧
      (epoch_changed env st).2.epoch = current_epoch env st) ∧
    st.epoch ≤ (epoch_changed env st).2.epoch := by
  by_cases h : current_epoch env st ≤ st.epoch
  · refine ⟨fun _ => ?_, fun h2 => absurd h (by omega), ?_⟩ <;>
      simp [epoch_changed, h]
  · have h2 : st.epoch < current_epoch env st := by omega
    refine ⟨fun h1 => absurd h1 h, fun _ => ?_, ?_⟩ <;>
      simp [epoch_changed, h, create_epoch_coins, create_coins]
    · omega

/-- C9 (counterexample): with genesis at 0, a first clock read of 0 and
a second clock read of 100, the computed delta for `n = 1` is negative,
and `next_n_slot_start` does not return a zero duration: it panics (the
`try_into().unwrap()` fails), modelled as `none`. -/
theorem next_n_slot_start_negative_panics_cex :
    nextSlotDelta { tEnv with now2 := 100 } baseCS 1 < 0 ∧
    next_n_slot_start { tEnv with now2 := 100 } baseCS 1 = none ∧
    next_n_slot_start { tEnv with now2 := 100 } baseCS 1 ≠ some 0 := by
  decide

/-- C9 (amended): for `n ≥ 1`, `next_n_slot_start` returns the computed
delta as a duration when the delta is non-negative, and panics — rather
than saturating to a zero duration — when the delta is negative (it also
panics on `n = 0`, by assertion). -/
theorem next_n_slot_start_spec (env : Env) (st : ConsensusState) (n : Nat) :
    (n = 0 → next_n_slot_start env st n = none) ∧
    (0 < n → nextSlotDelta env st n < 0 → next_n_slot_start env st n = none) ∧
    (0 < n → 0 ≤ nextSlotDelta env st n →
      next_n_slot_start env st n = some (nextSlotDelta env st n).toNat) := by
  refine ⟨fun h => by simp [next_n_slot_start, h], fun hn hd => ?_, fun hn hd => ?_⟩ <;>
    simp only [next_n_slot_start, if_neg (by omega : ¬ n = 0)]
  · rw [if_pos hd]
  · rw [if_neg (by omega)]

/-- C10: `is_slot_leader` is total only when the current relative slot
indexes into the coin matrix: whenever the matrix length is at most the
relative slot (in particular for the empty matrix before the first
successful `epoch_changed`), the entry assertion fails and the call
panics instead of returning `(false, 0)`. -/
theorem is_slot_leader_asserts_bound (env : Env) (st : ConsensusState)
    (h : st.coins.length ≤ relative_slot env (current_slot env st)) :
    is_slot_leader env st = none := by
  simp [is_slot_leader]
  omega

/-- C10 witness: the fresh state has an empty coin matrix, so the call
panics there. -/
theorem is_slot_leader_asserts_bound_witness :
    is_slot_leader tEnv baseCS = none :=
  is_slot_leader_asserts_bound tEnv baseCS (by decide)

/-! ## C3: the fork-extension scan -/

/-- Whether a proposal extends the tip of a chain: its previous hash is
the tip's header hash and its slot is beyond the tip's slot. -/
def tipMatchB (p : BlockProposal) (c : ProposalChain) : Bool :=
  match c.getLast? with
  | some last =>
    decide (p.block.header.previous = last.header) &&
      decide (last.block.header.slot < p.block.header.slot)
  | none => false

/-- Whether a proposal is a sibling of the tip of a chain: both share
the same previous hash and the proposal's slot is beyond the tip's. -/
def sibMatchB (p : BlockProposal) (c : ProposalChain) : Bool :=
  match c.getLast? with
  | some last =>
    decide (p.block.header.previous = last.block.header.previous) &&
      decide (last.block.header.slot < p.block.header.slot)
  | none => false

/-- Whether a chain matches either test of the scan. -/
def chainMatchB (p : BlockProposal) (c : ProposalChain) : Bool :=
  tipMatchB p c || sibMatchB p c

/-- The first chain, in order, matching either test, together with its
index: the specification-side description of how far the scan of
`find_extended_chain_index` gets. -/
def firstMatch (p : BlockProposal) : List ProposalChain → Option (Nat × ProposalChain)
  | [] => none
  | c :: rest =>
    if chainMatchB p c then some (0, c)
    else (firstMatch p rest).map (fun kc => (kc.1 + 1, kc.2))

theorem tipMatchB_iff {p : BlockProposal} {c : ProposalChain} {last : BlockProposal}
    (h : c.getLast? = some last) :
    tipMatchB p c = true ↔
      p.block.header.previous = last.header ∧ last.block.header.slot < p.block.header.slot := by
  simp [tipMatchB, h]

theorem sibMatchB_iff {p : BlockProposal} {c : ProposalChain} {last : BlockProposal}
    (h : c.getLast? = some last) :
    sibMatchB p c = true ↔
      p.block.header.previous = last.block.header.previous ∧
        last.block.header.slot < p.block.header.slot := by
  simp [sibMatchB, h]

/-- The scan loop agrees with the first-match description: no matching
chain means the loop runs to the end. -/
theorem fecLoop_of_firstMatch_none {p : BlockProposal} {chains : List ProposalChain}
    (hne : chains.all (fun c => !c.isEmpty) = true)
    (h : firstMatch p chains = none) : fecLoop p chains = some .noMatch := by
  induction chains with
  | nil => rfl
  | cons c rest ih =>
    simp only [List.all_cons, Bool.and_eq_true] at hne
    have hcne : c ≠ [] := by
      cases c with
      | nil => simp at hne
      | cons a l => simp
    obtain ⟨last, hlast⟩ := Option.isSome_iff_exists.mp (List.getLast?_isSome.mpr hcne)
    simp only [firstMatch] at h
    by_cases hm : chainMatchB p c = true
    · rw [if_pos hm] at h; cases h
    · rw [if_neg hm] at h
      have hrest : firstMatch p rest = none := by
        cases hfm : firstMatch p rest with
        | none => rfl
        | some kc => rw [hfm] at h; simp at h
      have hnt : ¬ (p.block.header.previous = last.header ∧
          last.block.header.slot < p.block.header.slot) := by
        intro hx
        exact hm (by simp [chainMatchB, (tipMatchB_iff hlast).mpr hx])
      have hns : ¬ (p.block.header.previous = last.block.header.previous ∧
          last.block.header.slot < p.block.header.slot) := by
        intro hx
        exact hm (by simp [chainMatchB, (sibMatchB_iff hlast).mpr hx])
      simp only [fecLoop, hlast, if_neg hnt, if_neg hns, ih hne.2 hrest]

/-- A chain failing both tests of the scan, spelled out against its
tip. -/
theorem chainMatch_false_elim {p : BlockProposal} {c : ProposalChain} {last : BlockProposal}
    (hlast : c.getLast? = some last) (hm : ¬ chainMatchB p c = true) :
    ¬ (p.block.header.previous = last.header ∧
        last.block.header.slot < p.block.header.slot) ∧
    ¬ (p.block.header.previous = last.block.header.previous ∧
        last.block.header.slot < p.block.header.slot) := by
  constructor
  · intro hx
    exact hm (by simp [chainMatchB, (tipMatchB_iff hlast).mpr hx])
  · intro hx
    exact hm (by simp [chainMatchB, (sibMatchB_iff hlast).mpr hx])

/-- The scan loop agrees with the first-match description: when the
first matching chain passes the tip test, the loop returns its index. -/
theorem fecLoop_of_firstMatch_tip {p : BlockProposal} {chains : List ProposalChain}
    {k : Nat} {c : ProposalChain}
    (hne : chains.all (fun ch => !ch.isEmpty) = true)
    (h : firstMatch p chains = some (k, c)) (htip : tipMatchB p c = true) :
    fecLoop p chains = some (.found k) := by
  induction chains generalizing k with
  | nil => cases h
  | cons ch rest ih =>
    simp only [List.all_cons, Bool.and_eq_true] at hne
    have hcne : ch ≠ [] := by
      cases ch with
      | nil => simp at hne
      | cons a l => simp
    obtain ⟨last, hlast⟩ := Option.isSome_iff_exists.mp (List.getLast?_isSome.mpr hcne)
    simp only [firstMatch] at h
    by_cases hm : chainMatchB p ch = true
    · rw [if_pos hm] at h
      have h' := Option.some.inj h
      have hk : (0 : Nat) = k := congrArg Prod.fst h'
      have hc : ch = c := congrArg Prod.snd h'
      rw [hc] at hlast
      have := (tipMatchB_iff hlast).mp htip
      simp only [fecLoop, hc, hlast, if_pos this, ← hk]
    · rw [if_neg hm] at h
      cases hfm : firstMatch p rest with
      | none => rw [hfm] at h; cases h
      | some kc =>
        rw [hfm] at h
        simp only [Option.map_some', Option.some.injEq, Prod.mk.injEq] at h
        obtain ⟨hk, hc⟩ := h
        obtain ⟨hnt, hns⟩ := chainMatch_false_elim hlast hm
        have := ih hne.2 (hc ▸ hfm : firstMatch p rest = some (kc.1, c))
        simp only [fecLoop, hlast, if_neg hnt, if_neg hns, this, hk]

/-- The scan loop agrees with the first-match description: when the
first matching chain fails the tip test (so passes the sibling test),
the loop stops and keeps that chain for forking. -/
theorem fecLoop_of_firstMatch_sib {p : BlockProposal} {chains : List ProposalChain}
    {k : Nat} {c : ProposalChain}
    (hne : chains.all (fun ch => !ch.isEmpty) = true)
    (h : firstMatch p chains = some (k, c)) (htip : tipMatchB p c = false) :
    fecLoop p chains = some (.fork c) := by
  induction chains generalizing k with
  | nil => cases h
  | cons ch rest ih =>
    simp only [List.all_cons, Bool.and_eq_true] at hne
    have hcne : ch ≠ [] := by
      cases ch with
      | nil => simp at hne
      | cons a l => simp
    obtain ⟨last, hlast⟩ := Option.isSome_iff_exists.mp (List.getLast?_isSome.mpr hcne)
    simp only [firstMatch] at h
    by_cases hm : chainMatchB p ch = true
    · rw [if_pos hm] at h
      have h' := Option.some.inj h
      have hc : ch = c := congrArg Prod.snd h'
      rw [hc] at hlast hm ⊢
      simp only [chainMatchB, Bool.or_eq_true] at hm
      have hsib : sibMatchB p c = true := by
        rcases hm with ht | hs
        · rw [htip] at ht; cases ht
        · exact hs
      have hnt : ¬ (p.block.header.previous = last.header ∧
          last.block.header.slot < p.block.header.slot) := by
        intro hx
        rw [(tipMatchB_iff hlast).mpr hx] at htip; cases htip
      simp only [fecLoop, hlast, if_neg hnt, if_pos ((sibMatchB_iff hlast).mp hsib)]
    · rw [if_neg hm] at h
      cases hfm : firstMatch p rest with
      | none => rw [hfm] at h; cases h
      | some kc =>
        rw [hfm] at h
        simp only [Option.map_some', Option.some.injEq, Prod.mk.injEq] at h
        obtain ⟨hk, hc⟩ := h
        obtain ⟨hnt, hns⟩ := chainMatch_false_elim hlast hm
        have := ih hne.2 (hc ▸ hfm : firstMatch p rest = some (kc.1, c))
        simp only [fecLoop, hlast, if_neg hnt, if_neg hns, this]

/-- Trivial metadata for fixture proposals. -/
def md0 : Metadata := ⟨0, 0, [], [], 0, 0, 0, 0, []⟩

/-- A fixture proposal with the given stored header hash, previous hash
and slot. -/
def mkProp (hash prev slot : Nat) : BlockProposal :=
  ⟨hash, ⟨⟨prev, 0, slot, 0, 0⟩, [], md0⟩⟩

/-- Chain 0's tip: header hash 10, previous 5, slot 1. -/
def propA1 : BlockProposal := mkProp 10 5 1

/-- Chain 1's tip: header hash 5, previous 7, slot 1. -/
def propB1 : BlockProposal := mkProp 5 7 1

/-- Two singleton fork chains. -/
def scanCS : ConsensusState := { baseCS with proposals := [[propA1], [propB1]] }

/-- A proposal with previous hash 5 and slot 2: a sibling of chain 0's
tip and at the same time an extension of chain 1's tip. -/
def propNew : BlockProposal := mkProp 20 5 2

/-- C3 (counterexample): the claim gives the tip-extension test priority
over all chains, so on `scanCS` it predicts index 1 (chain 1's tip has
header hash 5 = `propNew.previous` and a smaller slot).  The code scans
chain by chain and stops at chain 0, whose tip is a sibling match; the
clone minus its tip is empty, and the canonical fallback fails, so the
call returns −2 even though a tip-matching chain exists. -/
theorem find_extended_chain_index_scan_order_cex :
    find_extended_chain_index tEnv scanCS propNew = some (-2, scanCS) ∧
    tipMatchB propNew (scanCS.proposals.getD 1 []) = true ∧
    sibMatchB propNew (scanCS.proposals.getD 0 []) = true := by
  decide

/-- C3 (amended): `find_extended_chain_index` scans the chains in order
and acts on the *first* chain matching either test, trying the
tip-extension test before the sibling test within that chain: a tip
match returns that chain's index; a sibling match clones the chain,
drops its tip and appends the clone when nonempty, returning the new
index; an empty clone, or no matching chain, falls back to the
canonical-tip test, which returns −1 when the proposal extends the
canonical tip with a later slot and −2 otherwise. -/
theorem find_extended_chain_index_spec (env : Env) (st : ConsensusState) (p : BlockProposal)
    (hne : st.proposals.all (fun c => !c.isEmpty) = true) :
    (firstMatch p st.proposals = none →
      find_extended_chain_index env st p = some (fecCanonical env st p)) ∧
    (∀ k c, firstMatch p st.proposals = some (k, c) →
      (tipMatchB p c = true →
        find_extended_chain_index env st p = some ((k : Int), st)) ∧
      (tipMatchB p c = false → c.dropLast ≠ [] →
        find_extended_chain_index env st p =
          some ((st.proposals.length : Int),
            { st with proposals := st.proposals ++ [c.dropLast] })) ∧
      (tipMatchB p c = false → c.dropLast = [] →
        find_extended_chain_index env st p = some (fecCanonical env st p))) ∧
    fecCanonical env st p =
      (if p.block.header.previous = env.canonLast.2 ∧ env.canonLast.1 < p.block.header.slot
       then (-1, st) else (-2, st)) := by
  refine ⟨fun h => ?_, fun k c h => ⟨fun htip => ?_, fun htip hdl => ?_, fun htip hdl => ?_⟩, ?_⟩
  · simp [find_extended_chain_index, fecLoop_of_firstMatch_none hne h]
  · simp [find_extended_chain_index, fecLoop_of_firstMatch_tip hne h htip]
  · simp [find_extended_chain_index, fecLoop_of_firstMatch_sib hne h htip, hdl]
  · simp [find_extended_chain_index, fecLoop_of_firstMatch_sib hne h htip, hdl]
  · unfold fecCanonical
    by_cases hc : p.block.header.previous = env.canonLast.2 ∧
        env.canonLast.1 < p.block.header.slot
    · rw [if_pos hc, if_neg ?_]
      push_neg
      exact ⟨hc.1, hc.2⟩
    · rw [if_neg hc, if_pos ?_]
      by_contra hno
      push_neg at hno
      exact hc ⟨hno.1, hno.2⟩

/-- C3 (amended, witness): the amended description evaluated on the
two-chain fixture. -/
theorem find_extended_chain_index_spec_witness :
    (firstMatch propNew scanCS.proposals = none →
      find_extended_chain_index tEnv scanCS propNew =
        some (fecCanonical tEnv scanCS propNew)) ∧
    (∀ k c, firstMatch propNew scanCS.proposals = some (k, c) →
      (tipMatchB propNew c = true →
        find_extended_chain_index tEnv scanCS propNew = some ((k : Int), scanCS)) ∧
      (tipMatchB propNew c = false → c.dropLast ≠ [] →
        find_extended_chain_index tEnv scanCS propNew =
          some ((scanCS.proposals.length : Int),
            { scanCS with proposals := scanCS.proposals ++ [c.dropLast] })) ∧
      (tipMatchB propNew c = false → c.dropLast = [] →
        find_extended_chain_index tEnv scanCS propNew =
          some (fecCanonical tEnv scanCS propNew))) ∧
    fecCanonical tEnv scanCS propNew =
      (if propNew.block.header.previous = tEnv.canonLast.2 ∧
          tEnv.canonLast.1 < propNew.block.header.slot
       then (-1, scanCS) else (-2, scanCS)) :=
  find_extended_chain_index_spec tEnv scanCS propNew (by decide)

/-! ## Finalization lemmas -/

/-- The retain loop over the dropped chains removes exactly the listed
chains. -/
theorem retain_foldl (ds : List ProposalChain) (l : List ProposalChain) :
    ds.foldl (fun acc d => acc.filter (fun c => decide (c ≠ d))) l
      = l.filter (fun c => decide (c ∉ ds)) := by
  induction ds generalizing l with
  | nil => simp
  | cons d ds ih =>
    rw [List.foldl_cons, ih, List.filter_filter]
    apply List.filter_congr
    intro x _
    by_cases h1 : x = d <;> by_cases h2 : x ∈ ds <;> simp [h1, h2]

/-- Collecting the chains violating the anchoring condition and then
retaining everything unequal to any of them is filtering by the
anchoring condition. -/
theorem prune_eq_filter (lb ls : Nat) (l : List ProposalChain) :
    (l.filter (fun c => !keepB lb ls c)).foldl
        (fun acc d => acc.filter (fun c => decide (c ≠ d))) l
      = l.filter (keepB lb ls) := by
  rw [retain_foldl]
  apply List.filter_congr
  intro x hx
  by_cases hk : keepB lb ls x = true <;> simp [List.mem_filter, hx, hk]

/-- Dropping all but the last element of a list leaves exactly its last
element. -/
theorem drop_length_sub_one {l : List BlockProposal} {a : BlockProposal}
    (h : l.getLast? = some a) : l.drop (l.length - 1) = [a] := by
  induction l with
  | nil => cases h
  | cons x xs ih =>
    cases xs with
    | nil => simp at h; simp [h]
    | cons y ys =>
      rw [List.getLast?_cons_cons] at h
      have hih := ih h
      simp only [List.length_cons, Nat.add_sub_cancel] at hih ⊢
      rw [List.drop_succ_cons]
      exact hih

/-- The last element of `take (k + 1)` is the element at index `k`. -/
theorem getLast?_take_of_get? {l : List BlockProposal} {k : Nat} {a : BlockProposal}
    (h : l.get? k = some a) : (l.take (k + 1)).getLast? = some a := by
  induction l generalizing k with
  | nil => cases h
  | cons x xs ih =>
    cases k with
    | zero =>
      have : x = a := Option.some.inj h
      simp [this]
    | succ k =>
      have h' : xs.get? k = some a := h
      have hih := ih h'
      have hlt : k < xs.length := (List.get?_eq_some.mp h').1
      have hne : xs.take (k + 1) ≠ [] := by
        rw [Ne, List.take_eq_nil_iff]
        rintro (hk | hxs)
        · cases hk
        · rw [hxs] at hlt; cases hlt
      rw [List.take_succ_cons]
      cases htk : xs.take (k + 1) with
      | nil => exact absurd htk hne
      | cons z zs =>
        rw [htk] at hih
        rw [List.getLast?_cons_cons]
        exact hih

/-- Setting an entry of a list to a value satisfying a predicate keeps
an all-quantified predicate. -/
theorem all_set {l : List ProposalChain} {p : ProposalChain → Bool} {i : Nat}
    {v : ProposalChain} (hl : l.all p = true) (hv : p v = true) :
    (l.set i v).all p = true := by
  rw [List.all_eq_true] at hl ⊢
  intro x hx
  rcases List.mem_or_eq_of_mem_set hx with hmem | hxv
  · exact hl x hmem
  · rw [hxv]; exact hv

instance {ε α : Type} [DecidableEq ε] [DecidableEq α] : DecidableEq (Except ε α) := fun a b =>
  match a, b with
  | .ok x, .ok y =>
    if h : x = y then .isTrue (by rw [h]) else .isFalse (fun hx => h (Except.ok.inj hx))
  | .error x, .error y =>
    if h : x = y then .isTrue (by rw [h]) else .isFalse (fun hx => h (Except.error.inj hx))
  | .ok _, .error _ => .isFalse (fun hx => Except.noConfusion hx)
  | .error _, .ok _ => .isFalse (fun hx => Except.noConfusion hx)

/-! ## C2: finalization is not atomic -/

/-- A linked three-proposal chain: slots 1, 2, 3; each proposal's
previous hash is 999 (the canonical tip) or the slot of its
predecessor, matching the fixture hash oracles of `tEnv`. -/
def fq1 : BlockProposal := mkProp 1 999 1

/-- Second proposal of the fixture chain. -/
def fq2 : BlockProposal := mkProp 2 1 2

/-- Tip of the fixture chain: its previous hash 2 is the block hash the
gateway reports for `fq2`, and its slot 3 is past `fq2`'s. -/
def fq3 : BlockProposal := mkProp 3 2 3

/-- A state holding the single length-3 fixture chain. -/
def finCS : ConsensusState := { baseCS with proposals := [[fq1, fq2, fq3]] }

/-- The fixture environment whose gateway refuses every append. -/
def envAddFail : Env := { tEnv with addOk := fun _ => false }

/-- C2 (counterexample): on the single length-3 chain, when the gateway
append fails, `chain_finalization` returns the error with the chain
already drained to its former tip — the proposal chain is *not*
unchanged from its value before the call. -/
theorem chain_finalization_not_atomic_cex :
    chain_finalization envAddFail finCS 0 =
      some (.error .gatewayAdd, { finCS with proposals := [[fq3]] }) ∧
    (finCS.proposals.getD 0 []).length = 3 ∧
    [[fq3]] ≠ finCS.proposals := by
  exact ⟨rfl, rfl, by decide⟩

/-- C2 (amended): `chain_finalization` drains before it appends, so the
call is not atomic: whenever it returns an error, the chain at index
`i` (which had length at least 3) has already lost its `L − 1`
non-tip proposals and holds exactly its former tip; only the successful
and no-op outcomes leave the drained prefix appended or the state
untouched, respectively. -/
theorem chain_finalization_error_drains (env : Env) (st : ConsensusState)
    (i : Nat) (c : ProposalChain) (e : Err) (st1 : ConsensusState)
    (hc : st.proposals.get? i = some c)
    (h : chain_finalization env st i = some (.error e, st1)) :
    st1.proposals = st.proposals.set i (c.drop (c.length - 1)) ∧ 3 ≤ c.length := by
  simp only [chain_finalization, hc] at h
  by_cases h3 : c.length < 3
  · rw [if_pos h3] at h
    simp at h
  · rw [if_neg h3] at h
    by_cases hr : (st.proposals.enum.any fun ic => ic.1 ≠ i && c.length ≤ ic.2.length) = true
    · rw [if_pos hr] at h
      simp at h
    · rw [if_neg hr] at h
      by_cases ha : env.addOk ((c.take (c.length - 1)).map (·.block)) = true
      · rw [if_pos ha] at h
        by_cases hv : ((c.take (c.length - 1)).map (·.block)).all
            (fun b => env.verifyTx b.txs) = true
        · rw [if_pos hv] at h
          split at h
          · simp at h
          · split at h
            · simp at h
            · simp at h
        · rw [if_neg hv] at h
          simp only [Option.some.injEq, Prod.mk.injEq, Except.error.injEq] at h
          exact ⟨by rw [← h.2], by omega⟩
      · rw [if_neg ha] at h
        simp only [Option.some.injEq, Prod.mk.injEq, Except.error.injEq] at h
        exact ⟨by rw [← h.2], by omega⟩

/-- C2 (amended, witness): the drained-on-error behaviour at the
concrete failing-gateway fixture. -/
theorem chain_finalization_error_drains_witness :
    ({ finCS with proposals := [[fq3]] } : ConsensusState).proposals =
      finCS.proposals.set 0 (([fq1, fq2, fq3] : ProposalChain).drop
        (([fq1, fq2, fq3] : ProposalChain).length - 1)) ∧
    3 ≤ ([fq1, fq2, fq3] : ProposalChain).length :=
  chain_finalization_error_drains envAddFail finCS 0 [fq1, fq2, fq3] .gatewayAdd
    { finCS with proposals := [[fq3]] } rfl rfl

/-! ## C4, C5: successful finalization -/

/-- An all-nonempty chain list never reports an empty chain. -/
theorem any_isEmpty_false {l : List ProposalChain}
    (h : l.all (fun ch => !ch.isEmpty) = true) : l.any (·.isEmpty) = false := by
  rw [List.all_eq_true] at h
  rw [List.any_eq_false]
  intro x hx
  simpa using h x hx

/-- Setting within bounds places the value at the index. -/
theorem get?_set_self {l : List ProposalChain} {i : Nat} {v : ProposalChain}
    (h : i < l.length) : (l.set i v).get? i = some v := by
  simp [List.getElem?_set_self', h]

/-- A filtered list satisfies the filtering predicate throughout. -/
theorem all_filter_self (p : ProposalChain → Bool) (l : List ProposalChain) :
    (l.filter p).all p = true := by
  rw [List.all_eq_true]
  intro x hx
  exact (List.mem_filter.mp hx).2

/-- The full successful run of `chain_finalization`: with a chain of
length at least 3 at the index, no rival chain at least as long, all
chains nonempty, a tip that chains from the penultimate proposal, a
succeeding gateway append and succeeding transaction re-verification,
the call returns the `L − 1` drained blocks and the pruned state. -/
theorem chain_finalization_success_eq (env : Env) (st : ConsensusState) (i : Nat)
    (c : ProposalChain) (tip pen : BlockProposal)
    (hc : st.proposals.get? i = some c)
    (h3 : 3 ≤ c.length)
    (hr : (st.proposals.enum.any fun ic => ic.1 ≠ i && c.length ≤ ic.2.length) = false)
    (hne : st.proposals.all (fun ch => !ch.isEmpty) = true)
    (htip : c.getLast? = some tip)
    (hpen : c.get? (c.length - 2) = some pen)
    (ha : env.addOk ((c.take (c.length - 1)).map (·.block)) = true)
    (hv : ((c.take (c.length - 1)).map (·.block)).all (fun b => env.verifyTx b.txs) = true) :
    chain_finalization env st i =
      some (.ok ((c.take (c.length - 1)).map (·.block)),
        { st with proposals :=
            ((st.proposals.set i [tip]).filter
              (keepB (env.blockHash pen.block) pen.block.header.slot)) }) := by
  have hdrop : c.drop (c.length - 1) = [tip] := drop_length_sub_one htip
  have hfin : ((c.take (c.length - 1)).map (·.block)).getLast? = some pen.block := by
    rw [List.getLast?_map]
    rw [show c.length - 1 = (c.length - 2) + 1 by omega, getLast?_take_of_get? hpen]
    rfl
  have hallne : (st.proposals.set i [tip]).all (fun ch => !ch.isEmpty) = true :=
    all_set hne (by simp)
  simp only [chain_finalization, hc]
  rw [if_neg (by omega), if_neg (by rw [hr]; exact Bool.false_ne_true), if_pos ha,
    if_pos hv, hdrop]
  simp only [hfin]
  rw [if_neg (by simp [any_isEmpty_false hallne]), prune_eq_filter]

/-- C4: `chain_finalization` at chain index `i` of length `L` is a
no-op returning the empty list when `L < 3` or some other chain is at
least as long; otherwise (with the gateway append and the transaction
re-verification succeeding, and the tip chaining from the penultimate
proposal) it finalizes exactly the `L − 1` proposals before the tip, in
order, and the finalized chain afterwards holds exactly its former tip
and survives the pruning. -/
theorem chain_finalization_success_spec (env : Env) (st : ConsensusState) (i : Nat) :
    (∀ c, st.proposals.get? i = some c → c.length < 3 →
      chain_finalization env st i = some (.ok [], st)) ∧
    (∀ c, st.proposals.get? i = some c → 3 ≤ c.length →
      (st.proposals.enum.any fun ic => ic.1 ≠ i && c.length ≤ ic.2.length) = true →
      chain_finalization env st i = some (.ok [], st)) ∧
    (∀ c tip pen, st.proposals.get? i = some c → 3 ≤ c.length →
      (st.proposals.enum.any fun ic => ic.1 ≠ i && c.length ≤ ic.2.length) = false →
      st.proposals.all (fun ch => !ch.isEmpty) = true →
      c.getLast? = some tip → c.get? (c.length - 2) = some pen →
      env.addOk ((c.take (c.length - 1)).map (·.block)) = true →
      ((c.take (c.length - 1)).map (·.block)).all (fun b => env.verifyTx b.txs) = true →
      tip.block.header.previous = env.blockHash pen.block →
      pen.block.header.slot < tip.block.header.slot →
      chain_finalization env st i =
        some (.ok ((c.take (c.length - 1)).map (·.block)),
          { st with proposals :=
              ((st.proposals.set i [tip]).filter
                (keepB (env.blockHash pen.block) pen.block.header.slot)) }) ∧
      [tip] ∈ (st.proposals.set i [tip]).filter
          (keepB (env.blockHash pen.block) pen.block.header.slot)) := by
  refine ⟨fun c hc h3 => ?_, fun c hc h3 hr => ?_, fun c tip pen hc h3 hr hne htip hpen ha hv hl hs => ?_⟩
  · simp only [chain_finalization, hc]
    rw [if_pos h3]
  · simp only [chain_finalization, hc]
    rw [if_neg (by omega), if_pos hr]
  · have hkp : keepB (env.blockHash pen.block) pen.block.header.slot [tip] = true := by
      simp [keepB, hl, hs]
    refine ⟨chain_finalization_success_eq env st i c tip pen hc h3 hr hne htip hpen ha hv, ?_⟩
    exact List.mem_filter.mpr
      ⟨List.get?_mem (get?_set_self ((List.get?_eq_some.mp hc).1)), hkp⟩

/-- How the remaining fork chains look relative to the blocks a
successful finalization returned: every chain's first proposal chains
from the gateway hash of the last finalized block, with a strictly
larger slot.  (Trivially true when nothing was finalized.) -/
def anchoredB (env : Env) (bs : List PBlock) (chains : List ProposalChain) : Bool :=
  match bs.getLast? with
  | some lastb => chains.all (keepB (env.blockHash lastb) lastb.header.slot)
  | none => true

/-- C5: after a `chain_finalization` call that returns a nonempty list
of finalized blocks, every fork chain remaining in the state has a
first proposal whose previous hash is the gateway hash of the last
finalized block and whose slot is strictly greater than the last
finalized slot — chains violating either condition were pruned. -/
theorem chain_finalization_prunes_unanchored (env : Env) (st : ConsensusState)
    (i : Nat) (bs : List PBlock) (st1 : ConsensusState)
    (h : chain_finalization env st i = some (.ok bs, st1)) (hbs : bs ≠ []) :
    anchoredB env bs st1.proposals = true := by
  simp only [chain_finalization] at h
  cases hc : st.proposals.get? i with
  | none => simp only [hc] at h; cases h
  | some c =>
    simp only [hc] at h
    by_cases h3 : c.length < 3
    · rw [if_pos h3] at h
      simp only [Option.some.injEq, Prod.mk.injEq, Except.ok.injEq] at h
      exact absurd h.1.symm hbs
    · rw [if_neg h3] at h
      by_cases hr : (st.proposals.enum.any fun ic => ic.1 ≠ i && c.length ≤ ic.2.length) = true
      · rw [if_pos hr] at h
        simp only [Option.some.injEq, Prod.mk.injEq, Except.ok.injEq] at h
        exact absurd h.1.symm hbs
      · rw [if_neg hr] at h
        by_cases ha : env.addOk ((c.take (c.length - 1)).map (·.block)) = true
        · rw [if_pos ha] at h
          by_cases hv : ((c.take (c.length - 1)).map (·.block)).all
              (fun b => env.verifyTx b.txs) = true
          · rw [if_pos hv] at h
            cases hgl : ((c.take (c.length - 1)).map (·.block)).getLast? with
            | none => simp only [hgl] at h; cases h
            | some lastb =>
              simp only [hgl] at h
              by_cases hie : ((st.proposals.set i (c.drop (c.length - 1))).any
                  (·.isEmpty)) = true
              · rw [if_pos hie] at h
                cases h
              · rw [if_neg hie] at h
                simp only [Option.some.injEq, Prod.mk.injEq, Except.ok.injEq] at h
                obtain ⟨hb, hst⟩ := h
                rw [← hb, ← hst]
                simp only [anchoredB, hgl]
                rw [prune_eq_filter]
                exact all_filter_self _ _
          · rw [if_neg hv] at h
            simp at h
        · rw [if_neg ha] at h
          simp at h

/-- C5 (witness): the successful finalization of the length-3 fixture
chain leaves the single remaining chain anchored at the finalized tip. -/
theorem chain_finalization_prunes_unanchored_witness :
    anchoredB tEnv [fq1.block, fq2.block]
      ({ finCS with proposals := [[fq3]] } : ConsensusState).proposals = true :=
  chain_finalization_prunes_unanchored tEnv finCS 0 [fq1.block, fq2.block]
    { finCS with proposals := [[fq3]] } rfl (by decide)

/-! ## C6: the order of checks in `receive_proposal` -/

/-- C6: `receive_proposal` performs its checks in the stated order and
returns the first failing check's error: unknown leader, then header
mismatch, then coin public inputs, then leader proof, then signature,
then unknown extension, then transaction verification; and when
participation is unset, or the current slot is before the participating
slot, it returns success with no blocks and leaves the state
unchanged.  Each conjunct assumes the earlier checks pass and the named
check fails. -/
theorem receive_proposal_check_order (env : Env) (st : ValidatorState) (p : BlockProposal) :
    (st.participating = none → receive_proposal env st p = some (.ok none, st)) ∧
    (∀ start, st.participating = some start → current_slot env st.consensus < start →
      receive_proposal env st p = some (.ok none, st)) ∧
    (∀ start, st.participating = some start → start ≤ current_slot env st.consensus →
      lookupParticipant st.consensus.participants p.block.metadata.public_key = none →
      receive_proposal env st p = some (.error .unknownNode, st)) ∧
    (∀ start leader, st.participating = some start → start ≤ current_slot env st.consensus →
      lookupParticipant st.consensus.participants p.block.metadata.public_key = some leader →
      p.header ≠ env.headerhash p.block.header →
      receive_proposal env st p = some (.error .headersMissmatch, st)) ∧
    (∀ start leader pi, st.participating = some start →
      start ≤ current_slot env st.consensus →
      lookupParticipant st.consensus.participants p.block.metadata.public_key = some leader →
      p.header = env.headerhash p.block.header →
      (leader.coins.get? (relative_slot env (current_slot env st.consensus))).bind
        (fun row => row.get? p.block.metadata.winning_index) = some pi →
      pi ≠ p.block.metadata.public_inputs →
      receive_proposal env st p = some (.error .invalidPublicInputs, st)) ∧
    (∀ start leader pi, st.participating = some start →
      start ≤ current_slot env st.consensus →
      lookupParticipant st.consensus.participants p.block.metadata.public_key = some leader →
      p.header = env.headerhash p.block.header →
      (leader.coins.get? (relative_slot env (current_slot env st.consensus))).bind
        (fun row => row.get? p.block.metadata.winning_index) = some pi →
      pi = p.block.metadata.public_inputs →
      env.proofVerify p.block.metadata.proof pi = false →
      receive_proposal env st p = some (.error .leaderProofVerification, st)) ∧
    (∀ start leader pi, st.participating = some start →
      start ≤ current_slot env st.consensus →
      lookupParticipant st.consensus.participants p.block.metadata.public_key = some leader →
      p.header = env.headerhash p.block.header →
      (leader.coins.get? (relative_slot env (current_slot env st.consensus))).bind
        (fun row => row.get? p.block.metadata.winning_index) = some pi →
      pi = p.block.metadata.public_inputs →
      env.proofVerify p.block.metadata.proof pi = true →
      env.sigVerify leader.public_key p.header p.block.metadata.signature = false →
      receive_proposal env st p = some (.error .invalidSignature, st)) ∧
    (∀ start leader pi cs1, st.participating = some start →
      start ≤ current_slot env st.consensus →
      lookupParticipant st.consensus.participants p.block.metadata.public_key = some leader →
      p.header = env.headerhash p.block.header →
      (leader.coins.get? (relative_slot env (current_slot env st.consensus))).bind
        (fun row => row.get? p.block.metadata.winning_index) = some pi →
      pi = p.block.metadata.public_inputs →
      env.proofVerify p.block.metadata.proof pi = true →
      env.sigVerify leader.public_key p.header p.block.metadata.signature = true →
      find_extended_chain_index env st.consensus p = some (-2, cs1) →
      receive_proposal env st p =
        some (.error .extendedChainIndexNotFound, { st with consensus := cs1 })) ∧
    (∀ start leader pi idx cs1, st.participating = some start →
      start ≤ current_slot env st.consensus →
      lookupParticipant st.consensus.participants p.block.metadata.public_key = some leader →
      p.header = env.headerhash p.block.header →
      (leader.coins.get? (relative_slot env (current_slot env st.consensus))).bind
        (fun row => row.get? p.block.metadata.winning_index) = some pi →
      pi = p.block.metadata.public_inputs →
      env.proofVerify p.block.metadata.proof pi = true →
      env.sigVerify leader.public_key p.header p.block.metadata.signature = true →
      find_extended_chain_index env st.consensus p = some (idx, cs1) → idx ≠ -2 →
      env.verifyTx p.block.txs = false →
      receive_proposal env st p =
        some (.error .verifyTxFailed, { st with consensus := cs1 })) := by
  refine ⟨fun h1 => ?_,
    fun start h1 h2 => ?_,
    fun start h1 h2 h3 => ?_,
    fun start leader h1 h2 h3 h4 => ?_,
    fun start leader pi h1 h2 h3 h4 h5 h6 => ?_,
    fun start leader pi h1 h2 h3 h4 h5 h6 h7 => ?_,
    fun start leader pi h1 h2 h3 h4 h5 h6 h7 h8 => ?_,
    fun start leader pi cs1 h1 h2 h3 h4 h5 h6 h7 h8 h9 => ?_,
    fun start leader pi idx cs1 h1 h2 h3 h4 h5 h6 h7 h8 h9 h10 h11 => ?_⟩
  · simp only [receive_proposal, h1]
  · simp only [receive_proposal, h1]
    rw [if_pos h2]
  · simp only [receive_proposal, h1, h3]
    rw [if_neg (by omega)]
  · simp only [receive_proposal, h1, h3]
    rw [if_neg (by omega), if_pos h4]
  · simp only [receive_proposal, h1, h3, h5]
    rw [if_neg (by omega), if_neg (not_ne_iff.mpr h4), if_pos h6]
  · simp only [receive_proposal, h1, h3, h5]
    rw [if_neg (by omega), if_neg (not_ne_iff.mpr h4), if_neg (not_ne_iff.mpr h6),
      if_pos (by simp [h7])]
  · simp only [receive_proposal, h1, h3, h5]
    rw [if_neg (by omega), if_neg (not_ne_iff.mpr h4), if_neg (not_ne_iff.mpr h6),
      if_neg (by simp [h7]), if_pos (by simp [h8])]
  · simp only [receive_proposal, h1, h3, h5, h9]
    rw [if_neg (by omega), if_neg (not_ne_iff.mpr h4), if_neg (not_ne_iff.mpr h6),
      if_neg (by simp [h7]), if_neg (by simp [h8]), if_pos trivial]
  · simp only [receive_proposal, h1, h3, h5, h9]
    rw [if_neg (by omega), if_neg (not_ne_iff.mpr h4), if_neg (not_ne_iff.mpr h6),
      if_neg (by simp [h7]), if_neg (by simp [h8]), if_neg h10, if_pos (by simp [h11])]

/-! ## C7: strict slot monotonicity is invariant -/

/-- The adjacency relation of the invariant: strictly increasing slots. -/
def slotLt (a b : BlockProposal) : Prop :=
  a.block.header.slot < b.block.header.slot

instance : DecidableRel slotLt := fun a b =>
  Nat.decLt a.block.header.slot b.block.header.slot

/-- The slot-monotonicity invariant: every proposal in every fork chain
has a slot strictly greater than its predecessor's. -/
def slotInv (cs : ConsensusState) : Prop :=
  ∀ c ∈ cs.proposals, List.Chain' slotLt c

theorem chain'_drop {l : ProposalChain} (h : List.Chain' slotLt l) (n : Nat) :
    List.Chain' slotLt (l.drop n) := by
  rw [← List.take_append_drop n l] at h
  exact h.right_of_append

theorem chain'_dropLast {l : ProposalChain} (h : List.Chain' slotLt l) :
    List.Chain' slotLt l.dropLast := by
  rw [List.dropLast_eq_take]
  rw [← List.take_append_drop (l.length - 1) l] at h
  exact h.left_of_append

theorem chain'_append_lt {l : ProposalChain} {p last : BlockProposal}
    (h : List.Chain' slotLt l) (hl : l.getLast? = some last) (hlt : slotLt last p) :
    List.Chain' slotLt (l ++ [p]) := by
  rw [List.chain'_append]
  refine ⟨h, List.chain'_singleton p, ?_⟩
  intro x hx y hy
  simp only [Option.mem_def, hl, Option.some.injEq] at hx
  simp only [List.head?_cons, Option.mem_def, Option.some.injEq] at hy
  subst hx
  subst hy
  exact hlt

/-- In a strictly slot-increasing chain, the last proposal before the
tip has a smaller slot than the tip. -/
theorem chain'_dropLast_getLast_lt {l : ProposalChain} {a b : BlockProposal}
    (h : List.Chain' slotLt l) (ha : l.dropLast.getLast? = some a)
    (hb : l.getLast? = some b) : slotLt a b := by
  have hne : l ≠ [] := by rintro rfl; cases hb
  have hl : l.dropLast ++ [l.getLast hne] = l := List.dropLast_append_getLast hne
  rw [← hl] at h
  have htr := (List.chain'_append.mp h).2.2
  have hbl : l.getLast hne = b := by
    have := List.getLast?_eq_getLast l hne
    rw [this] at hb
    exact Option.some.inj hb
  have := htr a (by rw [Option.mem_def, ha]) (l.getLast hne) (by simp)
  rw [hbl] at this
  exact this

/-- Inversion of the scan loop: a `found` result names a chain whose
tip the proposal extends. -/
theorem fecLoop_found_inv {p : BlockProposal} {chains : List ProposalChain} {i : Nat}
    (h : fecLoop p chains = some (.found i)) :
    ∃ c last, chains.get? i = some c ∧ c.getLast? = some last ∧
      p.block.header.previous = last.header ∧
      last.block.header.slot < p.block.header.slot := by
  induction chains generalizing i with
  | nil => simp [fecLoop] at h
  | cons ch rest ih =>
    simp only [fecLoop] at h
    cases hlast : ch.getLast? with
    | none => simp only [hlast] at h; cases h
    | some last =>
      simp only [hlast] at h
      by_cases h1 : p.block.header.previous = last.header ∧
          last.block.header.slot < p.block.header.slot
      · rw [if_pos h1] at h
        have h2 := Option.some.inj h
        cases h2
        exact ⟨ch, last, rfl, hlast, h1.1, h1.2⟩
      · rw [if_neg h1] at h
        by_cases h2 : p.block.header.previous = last.block.header.previous ∧
            last.block.header.slot < p.block.header.slot
        · rw [if_pos h2] at h
          cases Option.some.inj h
        · rw [if_neg h2] at h
          cases hr : fecLoop p rest with
          | none => rw [hr] at h; cases h
          | some sc =>
            rw [hr] at h
            cases sc with
            | found j =>
              have h3 := Option.some.inj h
              have hj : j + 1 = i := by cases h3; rfl
              obtain ⟨c, last', hc, hl, hp, hs⟩ := ih hr
              exact ⟨c, last', by rw [← hj]; exact hc, hl, hp, hs⟩
            | fork c => cases Option.some.inj h
            | noMatch => cases Option.some.inj h

/-- Inversion of the scan loop: a `fork` result keeps a chain of the
fork set whose tip the proposal is a sibling of. -/
theorem fecLoop_fork_inv {p : BlockProposal} {chains : List ProposalChain}
    {c : ProposalChain} (h : fecLoop p chains = some (.fork c)) :
    ∃ last, c ∈ chains ∧ c.getLast? = some last ∧
      p.block.header.previous = last.block.header.previous ∧
      last.block.header.slot < p.block.header.slot := by
  induction chains with
  | nil => simp [fecLoop] at h
  | cons ch rest ih =>
    simp only [fecLoop] at h
    cases hlast : ch.getLast? with
    | none => simp only [hlast] at h; cases h
    | some last =>
      simp only [hlast] at h
      by_cases h1 : p.block.header.previous = last.header ∧
          last.block.header.slot < p.block.header.slot
      · rw [if_pos h1] at h
        cases Option.some.inj h
      · rw [if_neg h1] at h
        by_cases h2 : p.block.header.previous = last.block.header.previous ∧
            last.block.header.slot < p.block.header.slot
        · rw [if_pos h2] at h
          have h3 := Option.some.inj h
          cases h3
          exact ⟨last, List.mem_cons_self c rest, hlast, h2.1, h2.2⟩
        · rw [if_neg h2] at h
          cases hr : fecLoop p rest with
          | none => rw [hr] at h; cases h
          | some sc =>
            rw [hr] at h
            cases sc with
            | found j => cases Option.some.inj h
            | fork c' =>
              have h3 := Option.some.inj h
              cases h3
              obtain ⟨last', hm, hl, hp, hs⟩ := ih hr
              exact ⟨last', List.mem_cons_of_mem ch hm, hl, hp, hs⟩
            | noMatch => cases Option.some.inj h

theorem find_ext_eq_found (env : Env) (cs : ConsensusState) (p : BlockProposal) {i : Nat}
    (hsc : fecLoop p cs.proposals = some (.found i)) :
    find_extended_chain_index env cs p = some ((i : Int), cs) := by
  unfold find_extended_chain_index
  rw [hsc]

theorem find_ext_eq_fork (env : Env) (cs : ConsensusState) (p : BlockProposal)
    {c : ProposalChain} (hsc : fecLoop p cs.proposals = some (.fork c)) :
    find_extended_chain_index env cs p =
      (if c.dropLast ≠ [] then
        some ((cs.proposals.length : Int),
          { cs with proposals := cs.proposals ++ [c.dropLast] })
      else some (fecCanonical env cs p)) := by
  unfold find_extended_chain_index
  rw [hsc]

theorem find_ext_eq_noMatch (env : Env) (cs : ConsensusState) (p : BlockProposal)
    (hsc : fecLoop p cs.proposals = some .noMatch) :
    find_extended_chain_index env cs p = some (fecCanonical env cs p) := by
  unfold find_extended_chain_index
  rw [hsc]

/-- What `find_extended_chain_index` guarantees on success: the
invariant carries over to the possibly extended fork set; the returned
index is `−1`, `−2`, or non-negative; and a non-negative index names a
strictly slot-increasing chain whose tip's slot is below the
proposal's. -/
theorem find_ext_inv (env : Env) {cs : ConsensusState} {p : BlockProposal}
    {idx : Int} {cs1 : ConsensusState}
    (hinv : slotInv cs)
    (h : find_extended_chain_index env cs p = some (idx, cs1)) :
    slotInv cs1 ∧ (idx = -1 ∨ idx = -2 ∨ 0 ≤ idx) ∧
    (0 ≤ idx → ∀ cc, cs1.proposals.get? idx.toNat = some cc →
      List.Chain' slotLt cc ∧
      ∃ last, cc.getLast? = some last ∧
        last.block.header.slot < p.block.header.slot) := by
  have hcanon : (fecCanonical env cs p).2 = cs ∧
      ((fecCanonical env cs p).1 = -1 ∨ (fecCanonical env cs p).1 = -2) := by
    unfold fecCanonical
    by_cases hcnd : p.block.header.previous ≠ env.canonLast.2 ∨
        p.block.header.slot ≤ env.canonLast.1
    · simp only [if_pos hcnd]
      exact ⟨trivial, Or.inr trivial⟩
    · simp only [if_neg hcnd]
      exact ⟨trivial, Or.inl trivial⟩
  cases hsc : fecLoop p cs.proposals with
  | none => unfold find_extended_chain_index at h; rw [hsc] at h; cases h
  | some sc =>
    cases sc with
    | found i =>
      rw [find_ext_eq_found env cs p hsc] at h
      have h2 := Option.some.inj h
      cases h2
      refine ⟨hinv, by right; right; exact Int.ofNat_nonneg i, fun _ cc hcc => ?_⟩
      obtain ⟨c, last, hc, hl, hp, hs⟩ := fecLoop_found_inv hsc
      rw [Int.toNat_ofNat] at hcc
      rw [hc] at hcc
      have hcceq := Option.some.inj hcc
      rw [← hcceq]
      exact ⟨hinv c (List.get?_mem hc), last, hl, hs⟩
    | fork c =>
      obtain ⟨last, hmem, hl, hp, hs⟩ := fecLoop_fork_inv hsc
      have hmono := hinv c hmem
      rw [find_ext_eq_fork env cs p hsc] at h
      by_cases hd : c.dropLast ≠ []
      · rw [if_pos hd] at h
        have h2 := Option.some.inj h
        cases h2
        have hinv1 : slotInv { cs with proposals := cs.proposals ++ [c.dropLast] } := by
          intro ch hch
          rcases List.mem_append.mp hch with hm | hm
          · exact hinv ch hm
          · have : ch = c.dropLast := by simpa using hm
            rw [this]
            exact chain'_dropLast hmono
        refine ⟨hinv1, by right; right; exact Int.ofNat_nonneg _, fun _ cc hcc => ?_⟩
        have hcc2 : (cs.proposals ++ [c.dropLast]).get? cs.proposals.length = some cc := hcc
        rw [List.get?_eq_getElem?, List.getElem?_concat_length] at hcc2
        have hcceq := Option.some.inj hcc2
        rw [← hcceq]
        obtain ⟨a, ha⟩ := Option.isSome_iff_exists.mp (List.getLast?_isSome.mpr hd)
        refine ⟨chain'_dropLast hmono, a, ha, ?_⟩
        have := chain'_dropLast_getLast_lt hmono ha hl
        unfold slotLt at this
        omega
      · rw [if_neg hd] at h
        have h2 := Option.some.inj h
        have hsnd : (fecCanonical env cs p).2 = cs1 := congrArg Prod.snd h2
        have hfst : (fecCanonical env cs p).1 = idx := congrArg Prod.fst h2
        refine ⟨by rw [← hsnd, hcanon.1]; exact hinv, ?_, fun hge cc hcc => ?_⟩
        · rcases hcanon.2 with hm | hm
          · left; rw [← hfst]; exact hm
          · right; left; rw [← hfst]; exact hm
        · exfalso
          rcases hcanon.2 with hm | hm <;> rw [← hfst, hm] at hge <;> omega
    | noMatch =>
      rw [find_ext_eq_noMatch env cs p hsc] at h
      have h2 := Option.some.inj h
      have hsnd : (fecCanonical env cs p).2 = cs1 := congrArg Prod.snd h2
      have hfst : (fecCanonical env cs p).1 = idx := congrArg Prod.fst h2
      refine ⟨by rw [← hsnd, hcanon.1]; exact hinv, ?_, fun hge cc hcc => ?_⟩
      · rcases hcanon.2 with hm | hm
        · left; rw [← hfst]; exact hm
        · right; left; rw [← hfst]; exact hm
      · exfalso
        rcases hcanon.2 with hm | hm <;> rw [← hfst, hm] at hge <;> omega

/-- `chain_finalization` preserves the slot-monotonicity invariant: it
only drains a prefix of one chain and prunes whole chains. -/
theorem slotInv_chain_finalization (env : Env) {cs : ConsensusState} {i : Nat}
    {r : Except Err (List PBlock)} {cs1 : ConsensusState}
    (hinv : slotInv cs) (h : chain_finalization env cs i = some (r, cs1)) :
    slotInv cs1 := by
  simp only [chain_finalization] at h
  cases hc : cs.proposals.get? i with
  | none => simp only [hc] at h; cases h
  | some c =>
    simp only [hc] at h
    have hmc : List.Chain' slotLt c := hinv c (List.get?_mem hc)
    have hinvset : ∀ ch ∈ cs.proposals.set i (c.drop (c.length - 1)),
        List.Chain' slotLt ch := by
      intro ch hch
      rcases List.mem_or_eq_of_mem_set hch with hm | he
      · exact hinv ch hm
      · rw [he]; exact chain'_drop hmc _
    by_cases h3 : c.length < 3
    · rw [if_pos h3] at h
      injection Option.some.inj h with hfst hsnd
      subst hsnd
      exact hinv
    · rw [if_neg h3] at h
      by_cases hr : (cs.proposals.enum.any fun ic => ic.1 ≠ i && c.length ≤ ic.2.length) = true
      · rw [if_pos hr] at h
        injection Option.some.inj h with hfst hsnd
        subst hsnd
        exact hinv
      · rw [if_neg hr] at h
        by_cases ha : env.addOk ((c.take (c.length - 1)).map (·.block)) = true
        · rw [if_pos ha] at h
          by_cases hv : ((c.take (c.length - 1)).map (·.block)).all
              (fun b => env.verifyTx b.txs) = true
          · rw [if_pos hv] at h
            cases hgl : ((c.take (c.length - 1)).map (·.block)).getLast? with
            | none => simp only [hgl] at h; cases h
            | some lastb =>
              simp only [hgl] at h
              by_cases hie : ((cs.proposals.set i (c.drop (c.length - 1))).any
                  (·.isEmpty)) = true
              · rw [if_pos hie] at h
                cases h
              · rw [if_neg hie] at h
                injection Option.some.inj h with hfst hsnd
                subst hsnd
                intro ch hch
                rw [prune_eq_filter] at hch
                exact hinvset ch (List.mem_filter.mp hch).1
          · rw [if_neg hv] at h
            injection Option.some.inj h with hfst hsnd
            subst hsnd
            exact hinvset
        · rw [if_neg ha] at h
          injection Option.some.inj h with hfst hsnd
          subst hsnd
          exact hinvset

/-- `receive_proposal` preserves the slot-monotonicity invariant: every
chain growth is guarded by a strict slot comparison. -/
theorem slotInv_receive_proposal (env : Env) {st : ValidatorState} {p : BlockProposal}
    {r : Except Err (Option (List PBlock))} {st1 : ValidatorState}
    (hinv : slotInv st.consensus) (h : receive_proposal env st p = some (r, st1)) :
    slotInv st1.consensus := by
  simp only [receive_proposal] at h
  cases hpart : st.participating with
  | none =>
    simp only [hpart] at h
    injection Option.some.inj h with hfst hsnd
    subst hsnd
    exact hinv
  | some start =>
    simp only [hpart] at h
    by_cases hlt : current_slot env st.consensus < start
    · rw [if_pos hlt] at h
      injection Option.some.inj h with hfst hsnd
      subst hsnd
      exact hinv
    · rw [if_neg hlt] at h
      cases hlk : lookupParticipant st.consensus.participants p.block.metadata.public_key with
      | none =>
        simp only [hlk] at h
        injection Option.some.inj h with hfst hsnd
        subst hsnd
        exact hinv
      | some leader =>
        simp only [hlk] at h
        by_cases hh : p.header ≠ env.headerhash p.block.header
        · rw [if_pos hh] at h
          injection Option.some.inj h with hfst hsnd
          subst hsnd
          exact hinv
        · rw [if_neg hh] at h
          cases hpi : (leader.coins.get?
              (relative_slot env (current_slot env st.consensus))).bind
              (fun row => row.get? p.block.metadata.winning_index) with
          | none => simp only [hpi] at h; cases h
          | some pi =>
            simp only [hpi] at h
            by_cases hne : pi ≠ p.block.metadata.public_inputs
            · rw [if_pos hne] at h
              injection Option.some.inj h with hfst hsnd
              subst hsnd
              exact hinv
            · rw [if_neg hne] at h
              by_cases hpf : ¬ env.proofVerify p.block.metadata.proof pi = true
              · rw [if_pos hpf] at h
                injection Option.some.inj h with hfst hsnd
                subst hsnd
                exact hinv
              · rw [if_neg hpf] at h
                by_cases hsg : ¬ env.sigVerify leader.public_key p.header
                    p.block.metadata.signature = true
                · rw [if_pos hsg] at h
                  injection Option.some.inj h with hfst hsnd
                  subst hsnd
                  exact hinv
                · rw [if_neg hsg] at h
                  cases hfx : find_extended_chain_index env st.consensus p with
                  | none => simp only [hfx] at h; cases h
                  | some pr =>
                    obtain ⟨idx, csA⟩ := pr
                    simp only [hfx] at h
                    obtain ⟨hinvA, hshape, hext⟩ := find_ext_inv env hinv hfx
                    by_cases hm2 : idx = -2
                    · rw [if_pos hm2] at h
                      injection Option.some.inj h with hfst hsnd
                      subst hsnd
                      exact hinvA
                    · rw [if_neg hm2] at h
                      by_cases hvt : ¬ env.verifyTx p.block.txs = true
                      · rw [if_pos hvt] at h
                        injection Option.some.inj h with hfst hsnd
                        subst hsnd
                        exact hinvA
                      · rw [if_neg hvt] at h
                        by_cases hm1 : idx = -1
                        · rw [if_pos hm1] at h
                          injection Option.some.inj h with hfst hsnd
                          subst hsnd
                          intro ch hch
                          have hch2 : ch ∈ csA.proposals ++ [[p]] := hch
                          rcases List.mem_append.mp hch2 with hm | hm
                          · exact hinvA ch hm
                          · have hch3 : ch = [p] := by simpa using hm
                            rw [hch3]
                            exact List.chain'_singleton p
                        · rw [if_neg hm1] at h
                          have hge : 0 ≤ idx := by
                            rcases hshape with h' | h' | h' <;> omega
                          split at h
                          · simp at h
                          · rename_i cc hcc
                            have hcc2 : csA.proposals.get? idx.toNat = some cc := hcc
                            obtain ⟨hmono_cc, last, hlast, hlt2⟩ := hext hge cc hcc2
                            have hinv3 : ∀ ch ∈ csA.proposals.set idx.toNat (cc ++ [p]),
                                List.Chain' slotLt ch := by
                              intro ch hch
                              rcases List.mem_or_eq_of_mem_set hch with hm | he
                              · exact hinvA ch hm
                              · rw [he]
                                exact chain'_append_lt hmono_cc hlast hlt2
                            split at h
                            · simp at h
                            · rename_i e cs4 hfin
                              have hinv4 :=
                                slotInv_chain_finalization env
                                  (fun ch hch => hinv3 ch hch) hfin
                              injection Option.some.inj h with hfst hsnd
                              subst hsnd
                              exact hinv4
                            · rename_i v cs4 hfin
                              have hinv4 :=
                                slotInv_chain_finalization env
                                  (fun ch hch => hinv3 ch hch) hfin
                              injection Option.some.inj h with hfst hsnd
                              subst hsnd
                              exact hinv4

/-- C7: strict slot monotonicity is an invariant of the proposal
chains: both `receive_proposal` and `chain_finalization`, run from any
state whose chains are strictly slot-increasing, leave every chain
strictly slot-increasing. -/
theorem slot_monotonicity_preserved (env : Env) (st : ValidatorState)
    (cs : ConsensusState) (p : BlockProposal) (i : Nat) :
    (∀ r st1, slotInv st.consensus → receive_proposal env st p = some (r, st1) →
      slotInv st1.consensus) ∧
    (∀ r cs1, slotInv cs → chain_finalization env cs i = some (r, cs1) →
      slotInv cs1) :=
  ⟨fun _ _ hinv h => slotInv_receive_proposal env hinv h,
   fun _ _ hinv h => slotInv_chain_finalization env hinv h⟩

end Darkfi
